import Mathlib

/-!
Shallow embedding of the grid-search repository core: the shared search
types (`SearchResult`, path reconstruction), the BFS / DLS / UCS / A* /
bidirectional-BFS algorithms, and the `GridWorld` text-map loader.
Python dictionaries are modelled as association lists with
prepend-overwrite insertion and first-match lookup; `heapq` priority
queues are modelled as lists popped at the unique minimum of the item
order (the tie counters make the minimum unique); `while` loops are
modelled as fuel-indexed iteration of a step function; raised exceptions
become an explicit `err` outcome.
-/

set_option maxHeartbeats 1000000
set_option linter.unusedSectionVars false
set_option linter.unusedVariables false

universe u v

section Dict

variable {σ : Type u} {β : Type v} [DecidableEq σ]

/-- First-match lookup in an association list (Python `d.get(k)` / `k in d`). -/
def dGet : List (σ × β) → σ → Option β
  | [], _ => none
  | (k, v) :: rest, key => if key = k then some v else dGet rest key

/-- Python `d[k] = v`: prepend, so that first-match lookup sees the new value. -/
def dInsert (d : List (σ × β)) (k : σ) (v : β) : List (σ × β) :=
  (k, v) :: d

theorem dGet_insert_self (d : List (σ × β)) (k : σ) (v : β) :
    dGet (dInsert d k v) k = some v := by
  simp [dGet, dInsert]

theorem dGet_insert_ne (d : List (σ × β)) (k k' : σ) (v : β) (h : k' ≠ k) :
    dGet (dInsert d k v) k' = dGet d k' := by
  simp [dGet, dInsert, h]

/-- A key with a value is among the stored keys. -/
theorem dGet_isSome_mem_keys {d : List (σ × β)} {k : σ} :
    (dGet d k).isSome → k ∈ d.map Prod.fst := by
  induction d with
  | nil => simp [dGet]
  | cons hd tl ih =>
    by_cases hk : k = hd.1
    · subst hk; simp
    · intro hmem
      rw [show hd = (hd.1, hd.2) from rfl] at hmem
      rw [dGet, if_neg hk] at hmem
      simpa using Or.inr (ih hmem)

end Dict

section PopMin

variable {α : Type u} [DecidableEq α]

/-- Fold selecting the minimum of a nonempty list under a strict order `lt`. -/
def minBy (lt : α → α → Bool) : List α → Option α
  | [] => none
  | x :: xs => some (xs.foldl (fun best y => if lt y best then y else best) x)

/-- Remove the first occurrence of an element from a list. -/
def removeFirst : List α → α → List α
  | [], _ => []
  | x :: xs, a => if x = a then xs else x :: removeFirst xs a

/-- Model of `heapq.heappop`: extract the minimum element under `lt`
(unique for the search frontiers because tie counters are distinct). -/
def popMinBy (lt : α → α → Bool) (l : List α) : Option (α × List α) :=
  match minBy lt l with
  | none => none
  | some m => some (m, removeFirst l m)

theorem foldl_choice_mem (lt : α → α → Bool) :
    ∀ (xs : List α) (best : α),
      xs.foldl (fun b y => if lt y b then y else b) best ∈ best :: xs := by
  intro xs
  induction xs with
  | nil => intro best; simp
  | cons y ys ih =>
    intro best
    simp only [List.foldl_cons]
    by_cases hlt : lt y best = true
    · simp only [if_pos hlt]
      rcases List.mem_cons.mp (ih y) with h1 | h1
      · rw [h1]; simp
      · simp [h1]
    · simp only [hlt, Bool.false_eq_true, if_false]
      rcases List.mem_cons.mp (ih best) with h1 | h1
      · rw [h1]; simp
      · simp [h1]

theorem minBy_mem {lt : α → α → Bool} {l : List α} {m : α}
    (h : minBy lt l = some m) : m ∈ l := by
  cases l with
  | nil => simp [minBy] at h
  | cons x xs =>
    simp only [minBy, Option.some.injEq] at h
    rw [← h]
    exact foldl_choice_mem lt xs x

theorem foldl_min_spec {lt : α → α → Bool}
    (hirr : ∀ a, lt a a = false)
    (htr : ∀ a b c, lt a b = true → lt b c = true → lt a c = true)
    (hneg : ∀ a b c, lt a b = false → lt b c = false → lt a c = false)
    (xs : List α) (best : α) :
    lt best (xs.foldl (fun b y => if lt y b then y else b) best) = false ∧
      ∀ x ∈ xs, lt x (xs.foldl (fun b y => if lt y b then y else b) best) = false := by
  induction xs generalizing best with
  | nil => exact ⟨hirr best, by simp⟩
  | cons y ys ih =>
    simp only [List.foldl_cons]
    by_cases hlt : lt y best = true
    · simp only [if_pos hlt]
      obtain ⟨h1, h2⟩ := ih y
      refine ⟨?_, ?_⟩
      · cases hb : lt best (List.foldl (fun b y => if lt y b then y else b) y ys)
        · rfl
        · have := htr y best _ hlt hb
          rw [this] at h1; exact h1
      · intro x hx
        rcases List.mem_cons.mp hx with rfl | hx'
        · exact h1
        · exact h2 x hx'
    · have hlt' : lt y best = false := by
        cases h : lt y best
        · rfl
        · exact absurd h hlt
      simp only [hlt', Bool.false_eq_true, if_false]
      obtain ⟨h1, h2⟩ := ih best
      refine ⟨h1, ?_⟩
      intro x hx
      rcases List.mem_cons.mp hx with rfl | hx'
      · exact hneg x best _ hlt' h1
      · exact h2 x hx'

theorem popMinBy_min {lt : α → α → Bool}
    (hirr : ∀ a, lt a a = false)
    (htr : ∀ a b c, lt a b = true → lt b c = true → lt a c = true)
    (hneg : ∀ a b c, lt a b = false → lt b c = false → lt a c = false)
    {l : List α} {m : α} {rest : List α} (h : popMinBy lt l = some (m, rest)) :
    m ∈ l ∧ ∀ x ∈ l, lt x m = false := by
  unfold popMinBy at h
  cases hmb : minBy lt l with
  | none => rw [hmb] at h; exact absurd h (by simp)
  | some m' =>
    rw [hmb] at h
    simp only [Option.some.injEq, Prod.mk.injEq] at h
    obtain ⟨rfl, _⟩ := h
    refine ⟨minBy_mem hmb, ?_⟩
    cases l with
    | nil => simp [minBy] at hmb
    | cons x xs =>
      simp only [minBy, Option.some.injEq] at hmb
      subst hmb
      intro z hz
      obtain ⟨h1, h2⟩ := foldl_min_spec hirr htr hneg xs x
      rcases List.mem_cons.mp hz with rfl | hz'
      · exact h1
      · exact h2 z hz'

end PopMin

section Shared

variable {σ : Type u} [DecidableEq σ]

/-- Path costs: a finite float value or `float("inf")` (unreachable goal). -/
inductive Cost where
  | val : ℚ → Cost
  | inf : Cost
deriving DecidableEq, Repr

/-- `SearchResult` from `algos/search/base.py`. -/
structure SearchResult (σ : Type u) where
  found : Bool
  path : List σ
  cost : Cost
  expanded : ℕ
  frontierMax : ℕ
deriving DecidableEq, Repr

/-- Outcome of one loop iteration of an algorithm (or of a whole fueled run):
continue with a new loop state, return a `SearchResult`, or raise. -/
inductive Outcome (σ : Type u) (α : Type v) where
  | next : α → Outcome σ α
  | done : SearchResult σ → Outcome σ α
  | err : String → Outcome σ α
deriving DecidableEq, Repr

instance instDecidableEqExcept {ε : Type u} {α : Type v} [DecidableEq ε]
    [DecidableEq α] : DecidableEq (Except ε α) := fun x y =>
  match x, y with
  | .ok a, .ok b =>
    if h : a = b then .isTrue (by rw [h])
    else .isFalse (by intro hh; cases hh; exact h rfl)
  | .error a, .error b =>
    if h : a = b then .isTrue (by rw [h])
    else .isFalse (by intro hh; cases hh; exact h rfl)
  | .ok _, .error _ => .isFalse (by intro hh; cases hh)
  | .error _, .ok _ => .isFalse (by intro hh; cases hh)

/-- Fuel-indexed iteration of a loop body: `while ...` in the source. -/
def runLoop (step : α → Outcome σ α) : ℕ → α → Outcome σ α
  | 0, s => .next s
  | fuel + 1, s =>
    match step s with
    | .next s' => runLoop step fuel s'
    | .done r => .done r
    | .err e => .err e

/-- A property of all `done` results of a step function lifts to the fueled run. -/
theorem runLoop_done {step : α → Outcome σ α} {P : SearchResult σ → Prop}
    (hstep : ∀ s r, step s = .done r → P r) :
    ∀ fuel s r, runLoop step fuel s = .done r → P r := by
  intro fuel
  induction fuel with
  | zero => intro s r h; simp [runLoop] at h
  | succ n ih =>
    intro s r h
    rw [runLoop] at h
    cases hs : step s with
    | next s' => rw [hs] at h; exact ih s' r h
    | done r' => rw [hs] at h; cases h; exact hstep s r hs
    | err e => rw [hs] at h; cases h

/-- The backward walk of `reconstruct_path` (`while cur is not None`),
fuelled; `none` models a `KeyError` or divergence on a cyclic parent map. -/
def walkParent (parent : List (σ × Option σ)) : ℕ → σ → Option (List σ)
  | 0, _ => none
  | fuel + 1, cur =>
    match dGet parent cur with
    | none => none
    | some none => some [cur]
    | some (some p) =>
      match walkParent parent fuel p with
      | none => none
      | some l => some (cur :: l)

/-- `reconstruct_path` from `algos/search/base.py`: walk parent links from
`e` back to the `None` anchor, then reverse.  Any terminating walk visits
pairwise-distinct keys of `parent`, so fuel `parent.length + 1` is enough. -/
def reconstructPath (parent : List (σ × Option σ)) (e : σ) : Option (List σ) :=
  (walkParent parent (parent.length + 1) e).map List.reverse

/-- The parent chain from a state down to the `None` anchor, as walked (the
terminal state first, the anchor last). -/
inductive ParentChain (parent : List (σ × Option σ)) : σ → List σ → Prop where
  | anchor (s : σ) : dGet parent s = some none → ParentChain parent s [s]
  | step (s p : σ) (l : List σ) :
      dGet parent s = some (some p) → ParentChain parent p l → ParentChain parent s (s :: l)

theorem ParentChain.walk_eq {parent : List (σ × Option σ)} {s : σ} {l : List σ}
    (h : ParentChain parent s l) :
    ∀ fuel, l.length ≤ fuel → walkParent parent fuel s = some l := by
  induction h with
  | anchor s hget =>
    intro fuel hle
    match fuel, hle with
    | n + 1, _ => simp [walkParent, hget]
  | step s p l hget hchain ih =>
    intro fuel hle
    match fuel, hle with
    | n + 1, hle =>
      have : l.length ≤ n := by simp only [List.length_cons] at hle; omega
      simp [walkParent, hget, ih n this]

theorem ParentChain.unique {parent : List (σ × Option σ)} {s : σ} {l1 l2 : List σ}
    (h1 : ParentChain parent s l1) (h2 : ParentChain parent s l2) : l1 = l2 := by
  induction h1 generalizing l2 with
  | anchor s hget =>
    cases h2 with
    | anchor _ _ => rfl
    | step _ p _ hget' _ => rw [hget] at hget'; cases hget'
  | step s p l hget hchain ih =>
    cases h2 with
    | anchor _ hget' => rw [hget] at hget'; cases hget'
    | step _ p' l' hget' hchain' =>
      rw [hget] at hget'
      cases hget'
      rw [ih hchain']

theorem ParentChain.suffix {parent : List (σ × Option σ)} {s : σ} {l : List σ}
    (h : ParentChain parent s l) :
    ∀ i : Fin l.length, ParentChain parent (l.get i) (l.drop i) := by
  induction h with
  | anchor s hget =>
    intro i
    match i with
    | ⟨0, _⟩ => exact .anchor s hget
  | step s p l hget hchain ih =>
    intro i
    match i with
    | ⟨0, _⟩ => exact .step s p l hget hchain
    | ⟨j + 1, hj⟩ =>
      have hj' : j < l.length := by simpa using Nat.lt_of_succ_lt_succ (by simpa using hj)
      exact ih ⟨j, hj'⟩

theorem ParentChain.nodup {parent : List (σ × Option σ)} {s : σ} {l : List σ}
    (h : ParentChain parent s l) : l.Nodup := by
  rw [List.nodup_iff_injective_get]
  intro i j hij
  have hi := h.suffix i
  have hj := h.suffix j
  rw [hij] at hi
  have := hi.unique hj
  have hlen := congrArg List.length this
  simp only [List.length_drop] at hlen
  have := i.isLt
  have := j.isLt
  exact Fin.ext (by omega)

theorem ParentChain.mem_keys {parent : List (σ × Option σ)} {s : σ} {l : List σ}
    (h : ParentChain parent s l) : ∀ x ∈ l, x ∈ parent.map Prod.fst := by
  induction h with
  | anchor s hget =>
    intro x hx
    rcases List.mem_singleton.mp hx with rfl
    exact dGet_isSome_mem_keys (by simp [hget])
  | step s p l hget hchain ih =>
    intro x hx
    rcases List.mem_cons.mp hx with rfl | hx'
    · exact dGet_isSome_mem_keys (by simp [hget])
    · exact ih x hx'

theorem ParentChain.length_le {parent : List (σ × Option σ)} {s : σ} {l : List σ}
    (h : ParentChain parent s l) : l.length ≤ parent.length := by
  have hnd := h.nodup
  have hsub : l.toFinset ⊆ (parent.map Prod.fst).toFinset := by
    intro x hx
    rw [List.mem_toFinset] at hx ⊢
    exact h.mem_keys x hx
  calc l.length = l.toFinset.card := (List.toFinset_card_of_nodup hnd).symm
    _ ≤ (parent.map Prod.fst).toFinset.card := Finset.card_le_card hsub
    _ ≤ (parent.map Prod.fst).length := (parent.map Prod.fst).toFinset_card_le
    _ = parent.length := List.length_map _ _

end Shared

section Algorithms

variable {σ : Type u} [DecidableEq σ]

/-- Loop state of `bfs` (`algos/search/bfs.py`): FIFO queue, parent map
(also the discovered set), and the returned statistics. -/
structure BfsState (σ : Type u) where
  q : List σ
  parent : List (σ × Option σ)
  expanded : ℕ
  frontierMax : ℕ
  trace : List σ
deriving DecidableEq, Repr

/-- The neighbor loop of `bfs`: enqueue each undiscovered neighbor and
record its parent (step costs are discarded). -/
def bfsPush (cur : σ) :
    List (σ × ℚ) → List σ → List (σ × Option σ) → List σ × List (σ × Option σ)
  | [], q, p => (q, p)
  | (nxt, _) :: restN, q, p =>
    if (dGet p nxt).isSome then bfsPush cur restN q p
    else bfsPush cur restN (q ++ [nxt]) (dInsert p nxt (some cur))

/-- One iteration of the `while q:` loop of `bfs`. -/
def bfsStep (isGoal : σ → Bool) (neighbors : σ → List (σ × ℚ)) (s : BfsState σ) :
    Outcome σ (BfsState σ) :=
  match s.q with
  | [] => .done ⟨false, [], .inf, s.expanded, s.frontierMax⟩
  | cur :: qrest =>
    let fm := max s.frontierMax s.q.length
    let expanded := s.expanded + 1
    let tr := s.trace ++ [cur]
    if isGoal cur then
      match reconstructPath s.parent cur with
      | some path => .done ⟨true, path, .val ((path.length - 1 : ℕ) : ℚ), expanded, fm⟩
      | none => .err "KeyError"
    else
      let qp := bfsPush cur (neighbors cur) qrest s.parent
      .next ⟨qp.1, qp.2, expanded, fm, tr⟩

/-- `bfs` from `algos/search/bfs.py`, fuelled. -/
def bfs (start : σ) (isGoal : σ → Bool) (neighbors : σ → List (σ × ℚ)) (fuel : ℕ) :
    Outcome σ (BfsState σ) :=
  runLoop (bfsStep isGoal neighbors) fuel ⟨[start], [(start, none)], 0, 1, []⟩

/-- Loop state of `dls` (`algos/search/dls.py`): LIFO stack of
(state, depth) pairs, parent map, and shallowest-depth-seen map. -/
structure DlsState (σ : Type u) where
  stack : List (σ × ℕ)
  parent : List (σ × Option σ)
  bestDepthSeen : List (σ × ℕ)
  expanded : ℕ
  frontierMax : ℕ
  trace : List σ
deriving DecidableEq, Repr

/-- The neighbor loop of `dls`: push a neighbor at depth `depth + 1` when
that is strictly shallower than any previously recorded depth for it. -/
def dlsPush (cur : σ) (depth : ℕ) :
    List (σ × ℚ) → List (σ × ℕ) → List (σ × Option σ) → List (σ × ℕ) →
      List (σ × ℕ) × List (σ × Option σ) × List (σ × ℕ)
  | [], st, p, bd => (st, p, bd)
  | (nxt, _) :: restN, st, p, bd =>
    let nd := depth + 1
    let better := match dGet bd nxt with
      | none => true
      | some prev => decide (nd < prev)
    if better then
      dlsPush cur depth restN ((nxt, nd) :: st) (dInsert p nxt (some cur)) (dInsert bd nxt nd)
    else dlsPush cur depth restN st p bd

/-- One iteration of the `while stack:` loop of `dls`.  Note the order of
checks in the source: the node is counted as expanded and goal-checked
first; only neighbor generation is suppressed at `depth >= depth_limit`. -/
def dlsStep (isGoal : σ → Bool) (neighbors : σ → List (σ × ℚ)) (depthLimit : ℕ)
    (s : DlsState σ) : Outcome σ (DlsState σ) :=
  match s.stack with
  | [] => .done ⟨false, [], .inf, s.expanded, s.frontierMax⟩
  | (cur, depth) :: strest =>
    let fm := max s.frontierMax s.stack.length
    let expanded := s.expanded + 1
    let tr := s.trace ++ [cur]
    if isGoal cur then
      match reconstructPath s.parent cur with
      | some path => .done ⟨true, path, .val ((path.length - 1 : ℕ) : ℚ), expanded, fm⟩
      | none => .err "KeyError"
    else if depth ≥ depthLimit then
      .next ⟨strest, s.parent, s.bestDepthSeen, expanded, fm, tr⟩
    else
      let r := dlsPush cur depth (neighbors cur) strest s.parent s.bestDepthSeen
      .next ⟨r.1, r.2.1, r.2.2, expanded, fm, tr⟩

/-- `dls` from `algos/search/dls.py`, fuelled. -/
def dls (start : σ) (isGoal : σ → Bool) (neighbors : σ → List (σ × ℚ))
    (depthLimit : ℕ) (fuel : ℕ) : Outcome σ (DlsState σ) :=
  runLoop (dlsStep isGoal neighbors depthLimit) fuel
    ⟨[(start, 0)], [(start, none)], [(start, 0)], 0, 1, []⟩

/-- `_PQItem` of `algos/search/ucs.py`: ordered by `(g, tie)`; the state
payload is excluded from comparison (`field(compare=False)`). -/
structure UPQItem (σ : Type u) where
  g : ℚ
  tie : ℕ
  state : σ
deriving DecidableEq, Repr

/-- The dataclass order of UCS `_PQItem`: lexicographic on `(g, tie)`. -/
def uLt (a b : UPQItem σ) : Bool :=
  decide (a.g < b.g) || (decide (a.g = b.g) && decide (a.tie < b.tie))

/-- Loop state of `ucs` (`algos/search/ucs.py`). -/
structure UcsState (σ : Type u) where
  heap : List (UPQItem σ)
  tie : ℕ
  gCost : List (σ × ℚ)
  parent : List (σ × Option σ)
  expanded : ℕ
  frontierMax : ℕ
  trace : List σ
deriving DecidableEq, Repr

/-- The neighbor (relaxation) loop of `ucs`: raise on a negative step
cost, else re-push any neighbor whose best-known cost strictly improves. -/
def ucsRelax (cur : σ) (curG : ℚ) :
    List (σ × ℚ) → UcsState σ → Except String (UcsState σ)
  | [], s => .ok s
  | (nxt, step) :: restN, s =>
    if step < 0 then .error "UCS requires non-negative step costs."
    else
      let newG := curG + step
      let better := match dGet s.gCost nxt with
        | none => true
        | some old => decide (newG < old)
      if better then
        ucsRelax cur curG restN
          { s with
            gCost := dInsert s.gCost nxt newG,
            parent := dInsert s.parent nxt (some cur),
            tie := s.tie + 1,
            heap := s.heap ++ [⟨newG, s.tie + 1, nxt⟩] }
      else ucsRelax cur curG restN s

/-- One iteration of the `while heap:` loop of `ucs`: pop the minimum,
drop it if stale (its `g` is no longer the best known), else count it as
expanded, goal-check, and relax its neighbors. -/
def ucsStep (isGoal : σ → Bool) (neighbors : σ → List (σ × ℚ)) (s : UcsState σ) :
    Outcome σ (UcsState σ) :=
  match popMinBy uLt s.heap with
  | none => .done ⟨false, [], .inf, s.expanded, s.frontierMax⟩
  | some (item, hrest) =>
    let fm := max s.frontierMax s.heap.length
    let cur := item.state
    let curG := item.g
    let stale : Bool := match dGet s.gCost cur with
      | none => true
      | some g => decide (curG ≠ g)
    if stale then .next { s with heap := hrest, frontierMax := fm }
    else
      let expanded := s.expanded + 1
      let tr := s.trace ++ [cur]
      if isGoal cur then
        match reconstructPath s.parent cur, dGet s.gCost cur with
        | some path, some g => .done ⟨true, path, .val g, expanded, fm⟩
        | _, _ => .err "KeyError"
      else
        match ucsRelax cur curG (neighbors cur)
            { s with heap := hrest, expanded := expanded, frontierMax := fm, trace := tr } with
        | .ok s' => .next s'
        | .error e => .err e

/-- `ucs` from `algos/search/ucs.py`, fuelled. -/
def ucs (start : σ) (isGoal : σ → Bool) (neighbors : σ → List (σ × ℚ)) (fuel : ℕ) :
    Outcome σ (UcsState σ) :=
  runLoop (ucsStep isGoal neighbors) fuel ⟨[⟨0, 0, start⟩], 0, [(start, 0)], [(start, none)], 0, 1, []⟩

/-- `_PQItem` of `algos/search/astar.py`: ordered by `(f, g, tie)`; the
state payload is excluded from comparison. -/
structure APQItem (σ : Type u) where
  f : ℚ
  g : ℚ
  tie : ℕ
  state : σ
deriving DecidableEq, Repr

/-- The dataclass order of A* `_PQItem`: lexicographic on `(f, g, tie)`. -/
def aLt (a b : APQItem σ) : Bool :=
  decide (a.f < b.f) ||
    (decide (a.f = b.f) &&
      (decide (a.g < b.g) || (decide (a.g = b.g) && decide (a.tie < b.tie))))

/-- Loop state of `astar` (`algos/search/astar.py`). -/
structure AstarState (σ : Type u) where
  heap : List (APQItem σ)
  tie : ℕ
  gCost : List (σ × ℚ)
  parent : List (σ × Option σ)
  expanded : ℕ
  frontierMax : ℕ
  trace : List σ
deriving DecidableEq, Repr

/-- The neighbor (relaxation) loop of `astar`: raise on a negative step
cost, else re-push improved neighbors with priority `f = g + h`. -/
def astarRelax (h : σ → ℚ) (cur : σ) (curG : ℚ) :
    List (σ × ℚ) → AstarState σ → Except String (AstarState σ)
  | [], s => .ok s
  | (nxt, step) :: restN, s =>
    if step < 0 then .error "A* requires non-negative step costs."
    else
      let newG := curG + step
      let better := match dGet s.gCost nxt with
        | none => true
        | some old => decide (newG < old)
      if better then
        astarRelax h cur curG restN
          { s with
            gCost := dInsert s.gCost nxt newG,
            parent := dInsert s.parent nxt (some cur),
            tie := s.tie + 1,
            heap := s.heap ++ [⟨newG + h nxt, newG, s.tie + 1, nxt⟩] }
      else astarRelax h cur curG restN s

/-- One iteration of the `while heap:` loop of `astar`. -/
def astarStep (isGoal : σ → Bool) (neighbors : σ → List (σ × ℚ)) (h : σ → ℚ)
    (s : AstarState σ) : Outcome σ (AstarState σ) :=
  match popMinBy aLt s.heap with
  | none => .done ⟨false, [], .inf, s.expanded, s.frontierMax⟩
  | some (item, hrest) =>
    let fm := max s.frontierMax s.heap.length
    let cur := item.state
    let curG := item.g
    let stale : Bool := match dGet s.gCost cur with
      | none => true
      | some g => decide (curG ≠ g)
    if stale then .next { s with heap := hrest, frontierMax := fm }
    else
      let expanded := s.expanded + 1
      let tr := s.trace ++ [cur]
      if isGoal cur then
        match reconstructPath s.parent cur, dGet s.gCost cur with
        | some path, some g => .done ⟨true, path, .val g, expanded, fm⟩
        | _, _ => .err "KeyError"
      else
        match astarRelax h cur curG (neighbors cur)
            { s with heap := hrest, expanded := expanded, frontierMax := fm, trace := tr } with
        | .ok s' => .next s'
        | .error e => .err e

/-- `astar` from `algos/search/astar.py`, fuelled: the initial push is
`_PQItem(f=h(start), g=0.0, tie=0, state=start)`. -/
def astar (start : σ) (isGoal : σ → Bool) (neighbors : σ → List (σ × ℚ)) (h : σ → ℚ)
    (fuel : ℕ) : Outcome σ (AstarState σ) :=
  runLoop (astarStep isGoal neighbors h) fuel
    ⟨[⟨h start, 0, 0, start⟩], 0, [(start, 0)], [(start, none)], 0, 1, []⟩

/-- Loop state of `bds` (`algos/search/bds.py`): the two FIFO frontiers
and per-side parent maps. -/
structure BdsState (σ : Type u) where
  qf : List σ
  qb : List σ
  parentF : List (σ × Option σ)
  parentB : List (σ × Option σ)
  expanded : ℕ
  frontierMax : ℕ
  trace : List σ
deriving DecidableEq, Repr

/-- The neighbor loop of the inner `expand` of `bds`: record undiscovered
neighbors in this side's parent map, returning the meeting state as soon
as one is already known to the opposite side (early return: the rest of
the neighbors are not processed, and the meeting state is not enqueued). -/
def bdsScan (parentOther : List (σ × Option σ)) (cur : σ) :
    List (σ × ℚ) → List σ → List (σ × Option σ) →
      Option σ × List σ × List (σ × Option σ)
  | [], q, pt => (none, q, pt)
  | (nxt, _) :: restN, q, pt =>
    if (dGet pt nxt).isSome then bdsScan parentOther cur restN q pt
    else
      let pt' := dInsert pt nxt (some cur)
      if (dGet parentOther nxt).isSome then (some nxt, q, pt')
      else bdsScan parentOther cur restN (q ++ [nxt]) pt'

/-- Path splicing after the two frontiers of `bds` meet at `m`:
`full = path_f + path_b[1:]` where `path_b` was reversed to run from the
meeting state to the goal. -/
def bdsAssemble (parentF parentB : List (σ × Option σ)) (m : σ)
    (expanded fm : ℕ) : Outcome σ (BdsState σ) :=
  match reconstructPath parentF m, reconstructPath parentB m with
  | some pf, some pbRaw =>
    let full := pf ++ pbRaw.reverse.drop 1
    .done ⟨true, full, .val ((full.length - 1 : ℕ) : ℚ), expanded, fm⟩
  | _, _ => .err "KeyError"

/-- One iteration of the `while q_f and q_b:` loop of `bds`: one expansion
from the start side, then (if no meeting) one from the goal side. -/
def bdsStep (neighbors : σ → List (σ × ℚ)) (s : BdsState σ) :
    Outcome σ (BdsState σ) :=
  match s.qf, s.qb with
  | [], _ => .done ⟨false, [], .inf, s.expanded, s.frontierMax⟩
  | _ :: _, [] => .done ⟨false, [], .inf, s.expanded, s.frontierMax⟩
  | curF :: qfRest, curB :: qbRest =>
    let fm := max s.frontierMax (s.qf.length + s.qb.length)
    let exp1 := s.expanded + 1
    let tr1 := s.trace ++ [curF]
    let scanF := bdsScan s.parentB curF (neighbors curF) qfRest s.parentF
    match scanF.1 with
    | some m => bdsAssemble scanF.2.2 s.parentB m exp1 fm
    | none =>
      let exp2 := exp1 + 1
      let tr2 := tr1 ++ [curB]
      let scanB := bdsScan scanF.2.2 curB (neighbors curB) qbRest s.parentB
      match scanB.1 with
      | some m => bdsAssemble scanF.2.2 scanB.2.2 m exp2 fm
      | none => .next ⟨scanF.2.1, scanB.2.1, scanF.2.2, scanB.2.2, exp2, fm, tr2⟩

/-- `bds` from `algos/search/bds.py`, fuelled: raises without an explicit
goal; answers immediately (`expanded = 1`) when `start == goal`. -/
def bds (start : σ) (isGoal : σ → Bool) (neighbors : σ → List (σ × ℚ))
    (goal : Option σ) (fuel : ℕ) : Outcome σ (BdsState σ) :=
  match goal with
  | none => .err "bds requires goal=... (explicit goal state)."
  | some g =>
    if start = g then .done ⟨true, [start], .val 0, 1, 1⟩
    else
      runLoop (bdsStep neighbors) fuel
        ⟨[start], [g], [(start, none)], [(g, none)], 0, 2, []⟩

end Algorithms

section Grid

/-- `ln.strip() == ""`: the line holds only whitespace. -/
def isBlankLine (ln : List Char) : Bool :=
  ln.all (fun c => c.isWhitespace)

/-- The `remove empty lines` step of `GridWorld.from_file`. -/
def keptLines (src : List (List Char)) : List (List Char) :=
  src.filter (fun ln => !(isBlankLine ln))

/-- `GridWorld` from `env/gridworld.py` (the fields set by `from_file`). -/
structure GridWorld where
  grid : List (List Char)
  start : ℕ × ℕ
  goal : ℕ × ℕ
deriving DecidableEq, Repr

/-- The inner `for c in range(cols)` of the start/goal scan: `S` overwrites
the start coordinate, `elif G` overwrites the goal coordinate. -/
def scanRowFrom (r : ℕ) : ℕ → List Char → Option (ℕ × ℕ) × Option (ℕ × ℕ) →
    Option (ℕ × ℕ) × Option (ℕ × ℕ)
  | _, [], acc => acc
  | c, ch :: rest, acc =>
    let acc' :=
      if ch = 'S' then (some (r, c), acc.2)
      else if ch = 'G' then (acc.1, some (r, c))
      else acc
    scanRowFrom r (c + 1) rest acc'

/-- The outer `for r in range(rows)` of the start/goal scan. -/
def scanFrom : ℕ → List (List Char) → Option (ℕ × ℕ) × Option (ℕ × ℕ) →
    Option (ℕ × ℕ) × Option (ℕ × ℕ)
  | _, [], acc => acc
  | r, row :: rest, acc => scanFrom (r + 1) rest (scanRowFrom r 0 row acc)

/-- The full row-major start/goal scan of `GridWorld.from_file`. -/
def scanSG (lines : List (List Char)) : Option (ℕ × ℕ) × Option (ℕ × ℕ) :=
  scanFrom 0 lines (none, none)

/-- `GridWorld.from_file` from `env/gridworld.py`, over the list of text
lines of the source: drop blank lines, reject empty or non-rectangular
grids, locate start and goal, reject when either is missing. -/
def fromLines (src : List (List Char)) : Except String GridWorld :=
  let lines := keptLines src
  let rows := lines.length
  let cols := (lines.head?.map List.length).getD 0
  if rows = 0 ∨ cols = 0 then .error "Map is empty."
  else if lines.any (fun ln => ln.length ≠ cols) then .error "Non-rectangular map."
  else
    match scanSG lines with
    | (none, _) => .error "Map missing S (start)."
    | (some _, none) => .error "Map missing G (goal)."
    | (some s, some g) => .ok ⟨lines, s, g⟩

/-- `True` exactly on successful loads. -/
def isOkE (e : Except String GridWorld) : Bool :=
  match e with
  | .ok _ => true
  | .error _ => false

/-- Positions of a marker in one row, in scan order, starting at column `c`. -/
def rowPositions (mark : Char) (r : ℕ) : ℕ → List Char → List (ℕ × ℕ)
  | _, [] => []
  | c, ch :: rest =>
    (if ch = mark then [(r, c)] else []) ++ rowPositions mark r (c + 1) rest

/-- Positions of a marker in a grid, in row-major scan order. -/
def gridPositions (mark : Char) : ℕ → List (List Char) → List (ℕ × ℕ)
  | _, [] => []
  | r, row :: rest => rowPositions mark r 0 row ++ gridPositions mark (r + 1) rest

/-- Written from the claim: the coordinate of the last occurrence of a
marker in row-major scan order, compared below with the loader's scan. -/
def lastMarker (mark : Char) (lines : List (List Char)) : Option (ℕ × ℕ) :=
  (gridPositions mark 0 lines).getLast?

/-- `orLast later earlier` prefers the later-scanned position. -/
def orLast (later earlier : Option α) : Option α :=
  match later with
  | some x => some x
  | none => earlier

theorem orLast_none (a : Option α) : orLast a none = a := by
  cases a <;> rfl

theorem orLast_assoc (a b c : Option α) :
    orLast (orLast a b) c = orLast a (orLast b c) := by
  cases a <;> cases b <;> rfl

theorem getLast?_append_or (l1 l2 : List α) :
    (l1 ++ l2).getLast? = orLast l2.getLast? l1.getLast? := by
  rw [← List.head?_reverse, ← List.head?_reverse l1, ← List.head?_reverse l2,
    List.reverse_append]
  cases h : l2.reverse with
  | nil => simp [h, orLast]
  | cons a t => simp [h, orLast]

theorem scanRowFrom_fst (r : ℕ) :
    ∀ (c : ℕ) (row : List Char) (acc : Option (ℕ × ℕ) × Option (ℕ × ℕ)),
      (scanRowFrom r c row acc).1 =
        orLast (rowPositions 'S' r c row).getLast? acc.1 := by
  intro c row
  induction row generalizing c with
  | nil => intro acc; simp [scanRowFrom, rowPositions, orLast]
  | cons ch rest ih =>
    intro acc
    rw [scanRowFrom, rowPositions, getLast?_append_or, orLast_assoc, ih]
    congr 1
    by_cases hS : ch = 'S'
    · simp [hS, orLast]
    · by_cases hG : ch = 'G' <;> simp [hS, hG, orLast]

theorem scanRowFrom_snd (r : ℕ) :
    ∀ (c : ℕ) (row : List Char) (acc : Option (ℕ × ℕ) × Option (ℕ × ℕ)),
      (scanRowFrom r c row acc).2 =
        orLast (rowPositions 'G' r c row).getLast? acc.2 := by
  intro c row
  induction row generalizing c with
  | nil => intro acc; simp [scanRowFrom, rowPositions, orLast]
  | cons ch rest ih =>
    intro acc
    rw [scanRowFrom, rowPositions, getLast?_append_or, orLast_assoc, ih]
    congr 1
    by_cases hS : ch = 'S'
    · have : ch ≠ 'G' := by rw [hS]; decide
      simp [hS, this, orLast]
    · by_cases hG : ch = 'G' <;> simp [hS, hG, orLast]

theorem scanFrom_fst :
    ∀ (r : ℕ) (lines : List (List Char)) (acc : Option (ℕ × ℕ) × Option (ℕ × ℕ)),
      (scanFrom r lines acc).1 =
        orLast (gridPositions 'S' r lines).getLast? acc.1 := by
  intro r lines
  induction lines generalizing r with
  | nil => intro acc; simp [scanFrom, gridPositions, orLast]
  | cons row rest ih =>
    intro acc
    rw [scanFrom, gridPositions, getLast?_append_or, orLast_assoc, ih,
      scanRowFrom_fst]

theorem scanFrom_snd :
    ∀ (r : ℕ) (lines : List (List Char)) (acc : Option (ℕ × ℕ) × Option (ℕ × ℕ)),
      (scanFrom r lines acc).2 =
        orLast (gridPositions 'G' r lines).getLast? acc.2 := by
  intro r lines
  induction lines generalizing r with
  | nil => intro acc; simp [scanFrom, gridPositions, orLast]
  | cons row rest ih =>
    intro acc
    rw [scanFrom, gridPositions, getLast?_append_or, orLast_assoc, ih,
      scanRowFrom_snd]

theorem scanSG_eq (lines : List (List Char)) :
    scanSG lines = (lastMarker 'S' lines, lastMarker 'G' lines) := by
  unfold scanSG lastMarker
  refine Prod.ext ?_ ?_
  · rw [scanFrom_fst]; exact orLast_none _
  · rw [scanFrom_snd]; exact orLast_none _

theorem rowPositions_eq_nil (mark : Char) (r : ℕ) :
    ∀ (c : ℕ) (row : List Char), rowPositions mark r c row = [] ↔ mark ∉ row := by
  intro c row
  induction row generalizing c with
  | nil => simp [rowPositions]
  | cons ch rest ih =>
    rw [rowPositions]
    by_cases h : ch = mark
    · subst h; simp
    · simp only [h, if_false, List.nil_append, ih (c + 1), List.mem_cons,
        not_or]
      exact ⟨fun hm => ⟨fun hh => h hh.symm, hm⟩, fun hp => hp.2⟩

theorem gridPositions_eq_nil (mark : Char) :
    ∀ (r : ℕ) (lines : List (List Char)),
      gridPositions mark r lines = [] ↔ ∀ ln ∈ lines, mark ∉ ln := by
  intro r lines
  induction lines generalizing r with
  | nil => simp [gridPositions]
  | cons row rest ih =>
    rw [gridPositions]
    simp [rowPositions_eq_nil, ih (r + 1)]

end Grid

section SupportLemmas

variable {σ : Type u} [DecidableEq σ]

theorem walkParent_head {parent : List (σ × Option σ)} :
    ∀ {fuel : ℕ} {cur : σ} {l : List σ},
      walkParent parent fuel cur = some l → l.head? = some cur := by
  intro fuel cur l h
  match fuel with
  | 0 => simp [walkParent] at h
  | n + 1 =>
    rw [walkParent] at h
    split at h
    · cases h
    · cases h; rfl
    · split at h
      · cases h
      · cases h; rfl

theorem reconstructPath_getLast {parent : List (σ × Option σ)} {e : σ} {l : List σ}
    (h : reconstructPath parent e = some l) : l.getLast? = some e := by
  unfold reconstructPath at h
  cases hw : walkParent parent (parent.length + 1) e with
  | none => rw [hw] at h; cases h
  | some w =>
    rw [hw] at h
    cases h
    rw [List.getLast?_reverse]
    exact walkParent_head hw

theorem ucsRelax_neg_error (cur : σ) (curG : ℚ) :
    ∀ (nbrs : List (σ × ℚ)) (s : UcsState σ),
      (∃ p ∈ nbrs, p.2 < 0) →
      ucsRelax cur curG nbrs s = .error "UCS requires non-negative step costs." := by
  intro nbrs
  induction nbrs with
  | nil => intro s h; simp at h
  | cons hd tl ih =>
    intro s h
    obtain ⟨nxt, step⟩ := hd
    rw [ucsRelax]
    by_cases hs : step < 0
    · rw [if_pos hs]
    · rw [if_neg hs]
      have hex : ∃ p ∈ tl, p.2 < 0 := by
        rcases h with ⟨p, hp, hneg⟩
        rcases List.mem_cons.mp hp with rfl | hp'
        · exact absurd hneg hs
        · exact ⟨p, hp', hneg⟩
      dsimp only
      split
      · exact ih _ hex
      · exact ih _ hex

theorem astarRelax_neg_error (h : σ → ℚ) (cur : σ) (curG : ℚ) :
    ∀ (nbrs : List (σ × ℚ)) (s : AstarState σ),
      (∃ p ∈ nbrs, p.2 < 0) →
      astarRelax h cur curG nbrs s = .error "A* requires non-negative step costs." := by
  intro nbrs
  induction nbrs with
  | nil => intro s hex; simp at hex
  | cons hd tl ih =>
    intro s hex
    obtain ⟨nxt, step⟩ := hd
    rw [astarRelax]
    by_cases hs : step < 0
    · rw [if_pos hs]
    · rw [if_neg hs]
      have hex' : ∃ p ∈ tl, p.2 < 0 := by
        rcases hex with ⟨p, hp, hneg⟩
        rcases List.mem_cons.mp hp with rfl | hp'
        · exact absurd hneg hs
        · exact ⟨p, hp', hneg⟩
      dsimp only
      split
      · exact ih _ hex'
      · exact ih _ hex'

end SupportLemmas

/-- C9: for every parent mapping and terminal state whose parent chain
reaches the `None` anchor, `reconstruct_path` returns the walked chain
reversed (start-to-terminal order); for a terminal state absent from the
mapping, reconstruction fails (the `KeyError` is modelled as `none`). -/
theorem reconstructPath_spec {σ : Type u} [DecidableEq σ]
    (parent : List (σ × Option σ)) (e : σ) :
    (∀ l, ParentChain parent e l → reconstructPath parent e = some l.reverse) ∧
      (dGet parent e = none → reconstructPath parent e = none) := by
  constructor
  · intro l hl
    have hw := hl.walk_eq (parent.length + 1) (Nat.le_succ_of_le hl.length_le)
    simp [reconstructPath, hw]
  · intro h
    simp [reconstructPath, walkParent, h]

/-- Witness for C9 at a two-entry parent map and at an empty map. -/
theorem reconstructPath_spec_witness :
    reconstructPath [((1 : ℕ), some 0), (0, none)] 1 = some [0, 1] ∧
      reconstructPath ([] : List (ℕ × Option ℕ)) 0 = none := by
  constructor
  · have hc : ParentChain [((1 : ℕ), some 0), (0, none)] 1 [1, 0] :=
      .step 1 0 [0] (by decide) (.anchor 0 (by decide))
    have := (reconstructPath_spec [((1 : ℕ), some 0), (0, none)] 1).1 [1, 0] hc
    simpa using this
  · exact (reconstructPath_spec ([] : List (ℕ × Option ℕ)) 0).2 (by decide)

/-- C5: a popped UCS frontier entry whose recorded g no longer equals the
best-known g for its state is discarded: the resulting loop state keeps
the expanded counter, trace, cost table, and parent map unchanged, and
the outcome does not depend on the goal test or the neighbor function
(no goal check and no neighbor generation happen). -/
theorem ucs_stale_entry_discarded {σ : Type u} [DecidableEq σ]
    (isGoal : σ → Bool) (neighbors : σ → List (σ × ℚ)) (s : UcsState σ)
    (item : UPQItem σ) (hrest : List (UPQItem σ))
    (hpop : popMinBy uLt s.heap = some (item, hrest))
    (hstale : dGet s.gCost item.state ≠ some item.g) :
    ucsStep isGoal neighbors s =
      .next { s with heap := hrest, frontierMax := max s.frontierMax s.heap.length } := by
  unfold ucsStep
  rw [hpop]
  have hb : (match dGet s.gCost item.state with
      | none => true
      | some g => decide (item.g ≠ g)) = true := by
    cases hg : dGet s.gCost item.state with
    | none => rfl
    | some g =>
      simp only [decide_eq_true_iff]
      intro hgg
      exact hstale (by rw [hg, hgg])
  simp only [hb, if_true]

/-- Witness for C5: a stale entry (recorded g 5, best-known g 3). -/
theorem ucs_stale_entry_discarded_witness :
    ucsStep (σ := ℕ) (fun _ => false) (fun _ => [])
      ⟨[⟨5, 1, 0⟩], 1, [(0, 3)], [(0, none)], 0, 1, []⟩ =
      .next ⟨[], 1, [(0, 3)], [(0, none)], 0, 1, []⟩ := by
  have := ucs_stale_entry_discarded (σ := ℕ) (fun _ => false) (fun _ => [])
    ⟨[⟨5, 1, 0⟩], 1, [(0, 3)], [(0, none)], 0, 1, []⟩ ⟨5, 1, 0⟩ []
    (by decide) (by decide)
  simpa using this

/-- C1: in both UCS and A*, when the popped entry is fresh (so an
expansion happens), its state is not the goal (so neighbors are
enumerated), and the neighbor function offers some step cost strictly
below 0, the loop body raises the invalid-edge-cost error instead of
producing a `SearchResult` or continuing. -/
theorem ucs_astar_negative_cost_raises :
    (∀ (σ : Type u) [DecidableEq σ] (isGoal : σ → Bool)
        (neighbors : σ → List (σ × ℚ)) (s : UcsState σ)
        (item : UPQItem σ) (hrest : List (UPQItem σ)),
      popMinBy uLt s.heap = some (item, hrest) →
      dGet s.gCost item.state = some item.g →
      isGoal item.state = false →
      (∃ p ∈ neighbors item.state, p.2 < 0) →
      ucsStep isGoal neighbors s = .err "UCS requires non-negative step costs.") ∧
    (∀ (σ : Type u) [DecidableEq σ] (isGoal : σ → Bool)
        (neighbors : σ → List (σ × ℚ)) (h : σ → ℚ) (s : AstarState σ)
        (item : APQItem σ) (hrest : List (APQItem σ)),
      popMinBy aLt s.heap = some (item, hrest) →
      dGet s.gCost item.state = some item.g →
      isGoal item.state = false →
      (∃ p ∈ neighbors item.state, p.2 < 0) →
      astarStep isGoal neighbors h s = .err "A* requires non-negative step costs.") := by
  constructor
  · intro σ _ isGoal neighbors s item hrest hpop hfresh hgoal hneg
    unfold ucsStep
    rw [hpop]
    have hb : (match dGet s.gCost item.state with
        | none => true
        | some g => decide (item.g ≠ g)) = false := by
      rw [hfresh]; simp
    simp only [hb, Bool.false_eq_true, if_false, hgoal,
      ucsRelax_neg_error item.state item.g (neighbors item.state) _ hneg]
  · intro σ _ isGoal neighbors h s item hrest hpop hfresh hgoal hneg
    unfold astarStep
    rw [hpop]
    have hb : (match dGet s.gCost item.state with
        | none => true
        | some g => decide (item.g ≠ g)) = false := by
      rw [hfresh]; simp
    simp only [hb, Bool.false_eq_true, if_false, hgoal,
      astarRelax_neg_error h item.state item.g (neighbors item.state) _ hneg]

/-- Witness for C1: a fresh non-goal pop whose single neighbor has step
cost -1, in UCS and in A*. -/
theorem ucs_astar_negative_cost_raises_witness :
    ucsStep (σ := ℕ) (fun _ => false) (fun _ => [((1 : ℕ), (-1 : ℚ))])
      ⟨[⟨0, 0, 0⟩], 0, [(0, 0)], [(0, none)], 0, 1, []⟩ =
      .err "UCS requires non-negative step costs." ∧
    astarStep (σ := ℕ) (fun _ => false) (fun _ => [((1 : ℕ), (-1 : ℚ))]) (fun _ => 0)
      ⟨[⟨0, 0, 0, 0⟩], 0, [(0, 0)], [(0, none)], 0, 1, []⟩ =
      .err "A* requires non-negative step costs." := by
  constructor
  · exact ucs_astar_negative_cost_raises.1 ℕ (fun _ => false)
      (fun _ => [((1 : ℕ), (-1 : ℚ))])
      ⟨[⟨0, 0, 0⟩], 0, [(0, 0)], [(0, none)], 0, 1, []⟩ ⟨0, 0, 0⟩ []
      (by decide) (by decide) rfl ⟨((1 : ℕ), (-1 : ℚ)), by decide, by decide⟩
  · exact ucs_astar_negative_cost_raises.2 ℕ (fun _ => false)
      (fun _ => [((1 : ℕ), (-1 : ℚ))]) (fun _ => 0)
      ⟨[⟨0, 0, 0, 0⟩], 0, [(0, 0)], [(0, none)], 0, 1, []⟩ ⟨0, 0, 0, 0⟩ []
      (by decide) (by decide) rfl ⟨((1 : ℕ), (-1 : ℚ)), by decide, by decide⟩

/-- C2 counterexample: with `start == goal`, `bds` returns a result whose
`expanded` field is 1, not 0, so the expanded count does not reflect zero
frontier expansions as the claim states. -/
theorem bds_start_eq_goal_expanded_counterexample :
    bds (0 : ℕ) (fun s => decide (s = 0)) (fun _ => []) (some 0) 5 =
      .done ⟨true, [0], .val 0, 1, 1⟩ ∧ (1 : ℕ) ≠ 0 := by
  constructor
  · rfl
  · decide

/-- C2 (amended): with `start == goal`, `bds` returns immediately with
`found = true`, `path = [start]`, `cost = 0`, `frontier_max = 1` and
`expanded = 1` (a hard-coded count, despite no frontier expansion
happening); the result does not depend on the neighbor function or on
the loop fuel, so the frontier loop is never entered. -/
theorem bds_start_eq_goal_immediate {σ : Type u} [DecidableEq σ]
    (start goal : σ) (isGoal : σ → Bool) (neighbors : σ → List (σ × ℚ))
    (fuel : ℕ) (h : start = goal) :
    bds start isGoal neighbors (some goal) fuel =
      .done ⟨true, [start], .val 0, 1, 1⟩ := by
  unfold bds
  dsimp only
  rw [if_pos h]

/-- Witness for C2 (amended) at `start = goal = 3`. -/
theorem bds_start_eq_goal_immediate_witness :
    bds (3 : ℕ) (fun s => decide (s = 3)) (fun n => [(n + 1, 1)]) (some 3) 9 =
      .done ⟨true, [3], .val 0, 1, 1⟩ :=
  bds_start_eq_goal_immediate 3 3 (fun s => decide (s = 3)) (fun n => [(n + 1, 1)]) 9 rfl

/-- C4: whenever a BFS run returns a found result, the reported cost is
the edge count of the returned path (`len(path) - 1`), regardless of the
step costs supplied by the neighbor function; a popped state satisfying
the goal test ends the run successfully at once, and an empty frontier
ends it with `found = false`. -/
theorem bfs_cost_is_edge_count {σ : Type u} [DecidableEq σ] :
    (∀ (isGoal : σ → Bool) (neighbors : σ → List (σ × ℚ)) (start : σ)
        (fuel : ℕ) (r : SearchResult σ),
      bfs start isGoal neighbors fuel = .done r → r.found = true →
        r.cost = .val ((r.path.length - 1 : ℕ) : ℚ)) ∧
    (∀ (isGoal : σ → Bool) (neighbors : σ → List (σ × ℚ)) (s : BfsState σ)
        (cur : σ) (qrest : List σ) (path : List σ),
      s.q = cur :: qrest → isGoal cur = true →
      reconstructPath s.parent cur = some path →
      bfsStep isGoal neighbors s =
        .done ⟨true, path, .val ((path.length - 1 : ℕ) : ℚ), s.expanded + 1,
          max s.frontierMax s.q.length⟩) ∧
    (∀ (isGoal : σ → Bool) (neighbors : σ → List (σ × ℚ)) (s : BfsState σ),
      s.q = [] →
      bfsStep isGoal neighbors s =
        .done ⟨false, [], .inf, s.expanded, s.frontierMax⟩) := by
  refine ⟨?_, ?_, ?_⟩
  · intro isGoal neighbors start fuel r hrun hfound
    refine runLoop_done
      (P := fun r => r.found = true → r.cost = .val ((r.path.length - 1 : ℕ) : ℚ))
      ?_ fuel _ r hrun hfound
    intro s r' hdone
    unfold bfsStep at hdone
    split at hdone
    · cases hdone
      intro hf
      cases hf
    · split at hdone
      · split at hdone
        · cases hdone
          intro _
          rfl
        · cases hdone
      · cases hdone
  · intro isGoal neighbors s cur qrest path hq hgoal hrec
    obtain ⟨q, parent, expanded, frontierMax, trace⟩ := s
    simp only at hq
    subst hq
    unfold bfsStep
    simp only [hgoal, if_true, hrec]
  · intro isGoal neighbors s hq
    obtain ⟨q, parent, expanded, frontierMax, trace⟩ := s
    simp only at hq
    subst hq
    rfl

/-- Witness for C4 on a two-node line graph with a weighted edge (step
cost 5): the found cost is the edge count 1, not 5. -/
theorem bfs_cost_is_edge_count_witness :
    ((⟨true, [0, 1], .val 1, 2, 1⟩ : SearchResult ℕ).cost =
      .val (((⟨true, [0, 1], .val 1, 2, 1⟩ : SearchResult ℕ).path.length - 1 : ℕ) : ℚ)) ∧
    bfsStep (σ := ℕ) (fun s => decide (s = 1)) (fun _ => [])
      ⟨[1], [(1, some 0), (0, none)], 1, 1, [0]⟩ =
      .done ⟨true, [0, 1], .val 1, 2, 1⟩ ∧
    bfsStep (σ := ℕ) (fun s => decide (s = 1)) (fun _ => [])
      ⟨[], [(0, none)], 3, 2, []⟩ = .done ⟨false, [], .inf, 3, 2⟩ := by
  refine ⟨?_, ?_, ?_⟩
  · exact bfs_cost_is_edge_count.1 (fun s => decide (s = 1))
      (fun n => if n = 0 then [(1, 5)] else []) 0 3 ⟨true, [0, 1], .val 1, 2, 1⟩
      (by decide) rfl
  · have := bfs_cost_is_edge_count.2.1 (fun s => decide (s = 1)) (fun _ => [])
      ⟨[1], [(1, some 0), (0, none)], 1, 1, [0]⟩ 1 [] [0, 1] rfl (by decide) (by decide)
    simpa using this
  · exact bfs_cost_is_edge_count.2.2 (fun s => decide (s = 1)) (fun _ => [])
      ⟨[], [(0, none)], 3, 2, []⟩ rfl

theorem keptLines_nonblank {src : List (List Char)} {ln : List Char}
    (h : ln ∈ keptLines src) : isBlankLine ln = false := by
  unfold keptLines at h
  have := List.of_mem_filter h
  simpa using this

theorem mem_keptLines {src : List (List Char)} {ln : List Char}
    (h : ln ∈ src) (hnb : isBlankLine ln = false) : ln ∈ keptLines src := by
  unfold keptLines
  exact List.mem_filter.mpr ⟨h, by simp [hnb]⟩

theorem getLast?_none_iff {α : Type u} (l : List α) :
    l.getLast? = none ↔ l = [] := by
  rw [← List.head?_reverse]
  constructor
  · intro h
    have h2 : l.reverse = [] := by
      cases hr : l.reverse with
      | nil => rfl
      | cons a t => rw [hr] at h; cases h
    simpa using congrArg List.reverse h2
  · intro h; subst h; rfl

theorem lastMarker_none_iff (mark : Char) (lines : List (List Char)) :
    lastMarker mark lines = none ↔ ∀ ln ∈ lines, mark ∉ ln := by
  unfold lastMarker
  rw [getLast?_none_iff]
  exact gridPositions_eq_nil mark 0 lines

/-- The column count the loader compares against (length of the first
non-blank line, 0 for an empty grid). -/
def colsOf (src : List (List Char)) : ℕ :=
  ((keptLines src).head?.map List.length).getD 0

theorem fromLines_ok_characterization (src : List (List Char)) :
    isOkE (fromLines src) = true ↔
      (keptLines src ≠ [] ∧ (∀ ln ∈ keptLines src, ln.length = colsOf src) ∧
       (∃ ln ∈ keptLines src, 'S' ∈ ln) ∧ (∃ ln ∈ keptLines src, 'G' ∈ ln)) := by
  cases hk : keptLines src with
  | nil =>
    simp only [fromLines, hk]
    simp [isOkE]
  | cons l0 rest =>
    have hmem0 : l0 ∈ keptLines src := by
      rw [hk]; exact List.mem_cons_self l0 rest
    have hnb0 : isBlankLine l0 = false := keptLines_nonblank hmem0
    have hl0ne : l0 ≠ [] := by
      intro h
      rw [h] at hnb0
      exact absurd hnb0 (by decide)
    have hl0len : l0.length ≠ 0 := fun h => hl0ne (List.length_eq_zero.mp h)
    have hcols : colsOf src = l0.length := by
      simp [colsOf, hk]
    have hcols' : ((Option.map List.length (l0 :: rest).head?).getD 0) = l0.length := by
      simp
    simp only [fromLines, hk, hcols']
    rw [if_neg (by simp [hl0len])]
    by_cases hrect : ∀ ln ∈ l0 :: rest, ln.length = l0.length
    · have hanyf : ¬ (((l0 :: rest).any fun ln => decide (ln.length ≠ l0.length)) = true) := by
        simp only [List.any_eq_true, decide_eq_true_eq, not_exists, not_and, not_not]
        exact hrect
      rw [if_neg hanyf]
      rw [scanSG_eq]
      cases hS : lastMarker 'S' (l0 :: rest) with
      | none =>
        have hnoS := (lastMarker_none_iff 'S' (l0 :: rest)).mp hS
        simp only [isOkE]
        constructor
        · intro h; cases h
        · rintro ⟨-, -, ⟨ln, hln, hSln⟩, -⟩
          exact absurd hSln (hnoS ln hln)
      | some ps =>
        cases hG : lastMarker 'G' (l0 :: rest) with
        | none =>
          have hnoG := (lastMarker_none_iff 'G' (l0 :: rest)).mp hG
          simp only [isOkE]
          constructor
          · intro h; cases h
          · rintro ⟨-, -, -, ⟨ln, hln, hGln⟩⟩
            exact absurd hGln (hnoG ln hln)
        | some pg =>
          simp only [isOkE, true_iff]
          have hSex : ∃ ln ∈ l0 :: rest, 'S' ∈ ln := by
            by_contra hc
            push_neg at hc
            rw [(lastMarker_none_iff 'S' (l0 :: rest)).mpr hc] at hS
            cases hS
          have hGex : ∃ ln ∈ l0 :: rest, 'G' ∈ ln := by
            by_contra hc
            push_neg at hc
            rw [(lastMarker_none_iff 'G' (l0 :: rest)).mpr hc] at hG
            cases hG
          refine ⟨by simp, ?_, hSex, hGex⟩
          intro ln hln
          rw [hcols]
          exact hrect ln hln
    · have hanyt : (((l0 :: rest).any fun ln => decide (ln.length ≠ l0.length)) = true) := by
        simp only [List.any_eq_true, decide_eq_true_eq]
        push_neg at hrect
        exact hrect
      rw [if_pos hanyt]
      simp only [isOkE]
      constructor
      · intro h; cases h
      · rintro ⟨-, hunif, -, -⟩
        exfalso
        apply hrect
        intro ln hln
        rw [← hcols]
        exact hunif ln hln

theorem fromLines_ok_shape {src : List (List Char)} {gw : GridWorld}
    (h : fromLines src = .ok gw) :
    gw.grid = keptLines src ∧
      some gw.start = lastMarker 'S' (keptLines src) ∧
      some gw.goal = lastMarker 'G' (keptLines src) := by
  unfold fromLines at h
  dsimp only at h
  split at h
  · cases h
  · split at h
    · cases h
    · rw [scanSG_eq] at h
      split at h
      · cases h
      · cases h
      · cases h
        rename_i heq
        simp only [Prod.mk.injEq] at heq
        exact ⟨rfl, heq.1.symm, heq.2.symm⟩

/-- C7 counterexample: a source whose rows are not of uniform length
(2, 0, 2) for which loading nevertheless succeeds — the loader removes
blank lines before the rectangularity check, so the claim's failure
condition "rows are not uniform" does not hold of the raw source rows. -/
theorem fromLines_blank_line_counterexample :
    fromLines [['S', 'G'], [], ['F', 'F']] =
      .ok ⟨[['S', 'G'], ['F', 'F']], (0, 0), (0, 1)⟩ ∧
    (['S', 'G'] : List Char).length ≠ ([] : List Char).length ∧
    ['S', 'G'] ∈ [['S', 'G'], ([] : List Char), ['F', 'F']] ∧
    ([] : List Char) ∈ [['S', 'G'], ([] : List Char), ['F', 'F']] := by
  refine ⟨by decide, by decide, by decide, by decide⟩

/-- C7 (amended): loading succeeds exactly when, after blank
(whitespace-only) lines are removed, some line remains, all remaining
lines have the length of the first remaining line, and some remaining
line contains the start marker and some the goal marker; it fails with
the map-format error (a raised `ValueError`) in every other case. -/
theorem fromLines_ok_iff (src : List (List Char)) :
    isOkE (fromLines src) = true ↔
      (keptLines src ≠ [] ∧ (∀ ln ∈ keptLines src, ln.length = colsOf src) ∧
       (∃ ln ∈ keptLines src, 'S' ∈ ln) ∧ (∃ ln ∈ keptLines src, 'G' ∈ ln)) :=
  fromLines_ok_characterization src

/-- Witness for C7 (amended): a loadable 1x2 grid, via the right-to-left
direction of the equivalence. -/
theorem fromLines_ok_iff_witness :
    isOkE (fromLines [['S', 'G']]) = true :=
  (fromLines_ok_iff [['S', 'G']]).mpr
    ⟨by decide, by decide, ⟨['S', 'G'], by decide, by decide⟩,
      ⟨['S', 'G'], by decide, by decide⟩⟩

/-- C10: start/goal uniqueness is not enforced: a rectangular source with
at least one start and one goal marker, one of them occurring at least
twice, still loads, and the recorded start (resp. goal) coordinate is the
last occurrence of the marker in row-major scan order over the loaded
grid. -/
theorem fromLines_duplicate_markers_last_wins (src : List (List Char))
    (w : ℕ) (hw : ∀ ln ∈ src, ln.length = w)
    (hS : ∃ ln ∈ src, 'S' ∈ ln) (hG : ∃ ln ∈ src, 'G' ∈ ln)
    (hdup : 2 ≤ (src.map (fun ln => ln.count 'S')).sum ∨
      2 ≤ (src.map (fun ln => ln.count 'G')).sum) :
    ∃ gw : GridWorld, fromLines src = .ok gw ∧ gw.grid = keptLines src ∧
      some gw.start = lastMarker 'S' (keptLines src) ∧
      some gw.goal = lastMarker 'G' (keptLines src) := by
  obtain ⟨lnS, hlnS, hSin⟩ := hS
  obtain ⟨lnG, hlnG, hGin⟩ := hG
  have hnbS : isBlankLine lnS = false := by
    cases hall : lnS.all (fun c => c.isWhitespace) with
    | false => exact hall
    | true =>
      exfalso
      have := List.all_eq_true.mp hall _ hSin
      exact absurd this (by decide)
  have hnbG : isBlankLine lnG = false := by
    cases hall : lnG.all (fun c => c.isWhitespace) with
    | false => exact hall
    | true =>
      exfalso
      have := List.all_eq_true.mp hall _ hGin
      exact absurd this (by decide)
  have hmemS : lnS ∈ keptLines src := mem_keptLines hlnS hnbS
  have hmemG : lnG ∈ keptLines src := mem_keptLines hlnG hnbG
  have hkne : keptLines src ≠ [] := by
    intro h
    rw [h] at hmemS
    cases hmemS
  have hwk : ∀ ln ∈ keptLines src, ln.length = w := fun ln hln =>
    hw ln (List.mem_of_mem_filter hln)
  have hcols : colsOf src = w := by
    cases hk : keptLines src with
    | nil => exact absurd hk hkne
    | cons l0 r =>
      have : l0.length = w := hwk l0 (by rw [hk]; exact List.mem_cons_self l0 r)
      simp [colsOf, hk, this]
  have hok : isOkE (fromLines src) = true :=
    (fromLines_ok_characterization src).mpr
      ⟨hkne, by rw [hcols]; exact hwk, ⟨lnS, hmemS, hSin⟩, ⟨lnG, hmemG, hGin⟩⟩
  obtain ⟨gw, hgw⟩ : ∃ gw, fromLines src = .ok gw := by
    cases hfl : fromLines src with
    | ok gw => exact ⟨gw, rfl⟩
    | error e => rw [hfl] at hok; cases hok
  obtain ⟨h1, h2, h3⟩ := fromLines_ok_shape hgw
  exact ⟨gw, hgw, h1, h2, h3⟩

/-- Witness for C10: a 2x2 grid with two start and two goal markers; the
loaded coordinates are (0,1) and (1,1), the later occurrences. -/
theorem fromLines_duplicate_markers_last_wins_witness :
    ∃ gw : GridWorld,
      fromLines [['S', 'S'], ['G', 'G']] = .ok gw ∧
      gw.grid = keptLines [['S', 'S'], ['G', 'G']] ∧
      some gw.start = lastMarker 'S' (keptLines [['S', 'S'], ['G', 'G']]) ∧
      some gw.goal = lastMarker 'G' (keptLines [['S', 'S'], ['G', 'G']]) :=
  fromLines_duplicate_markers_last_wins [['S', 'S'], ['G', 'G']] 2
    (by decide) ⟨['S', 'S'], by decide, by decide⟩
    ⟨['G', 'G'], by decide, by decide⟩ (Or.inl (by decide))

/-- C8: when a `bds` iteration meets at state `m` (on either side), the
returned path is the start-side path to `m` concatenated with the
reversed goal-side path with its first element (the duplicated `m`)
dropped, and the reported cost is the edge count of that assembled path;
`m` closes the first half and is excluded from the second. -/
theorem bds_meeting_path_spliced {σ : Type u} [DecidableEq σ] :
    (∀ (neighbors : σ → List (σ × ℚ)) (s : BdsState σ) (curF : σ)
        (qfRest : List σ) (curB : σ) (qbRest : List σ) (m : σ) (q1 : List σ)
        (pf1 : List (σ × Option σ)) (pf pbRaw : List σ),
      s.qf = curF :: qfRest → s.qb = curB :: qbRest →
      bdsScan s.parentB curF (neighbors curF) qfRest s.parentF = (some m, q1, pf1) →
      reconstructPath pf1 m = some pf →
      reconstructPath s.parentB m = some pbRaw →
      bdsStep neighbors s =
        .done ⟨true, pf ++ pbRaw.reverse.drop 1,
          .val (((pf ++ pbRaw.reverse.drop 1).length - 1 : ℕ) : ℚ),
          s.expanded + 1, max s.frontierMax (s.qf.length + s.qb.length)⟩ ∧
        pf.getLast? = some m ∧ pbRaw.reverse.head? = some m) ∧
    (∀ (neighbors : σ → List (σ × ℚ)) (s : BdsState σ) (curF : σ)
        (qfRest : List σ) (curB : σ) (qbRest : List σ) (m : σ)
        (q1 q2 : List σ) (pf1 pb1 : List (σ × Option σ)) (pf pbRaw : List σ),
      s.qf = curF :: qfRest → s.qb = curB :: qbRest →
      bdsScan s.parentB curF (neighbors curF) qfRest s.parentF = (none, q1, pf1) →
      bdsScan pf1 curB (neighbors curB) qbRest s.parentB = (some m, q2, pb1) →
      reconstructPath pf1 m = some pf →
      reconstructPath pb1 m = some pbRaw →
      bdsStep neighbors s =
        .done ⟨true, pf ++ pbRaw.reverse.drop 1,
          .val (((pf ++ pbRaw.reverse.drop 1).length - 1 : ℕ) : ℚ),
          s.expanded + 1 + 1, max s.frontierMax (s.qf.length + s.qb.length)⟩ ∧
        pf.getLast? = some m ∧ pbRaw.reverse.head? = some m) := by
  constructor
  · intro neighbors s curF qfRest curB qbRest m q1 pf1 pf pbRaw hqf hqb hscan hrec1 hrec2
    obtain ⟨qf, qb, parentF, parentB, expanded, frontierMax, trace⟩ := s
    simp only at hqf hqb hscan hrec2 ⊢
    subst hqf hqb
    refine ⟨?_, reconstructPath_getLast hrec1, ?_⟩
    · unfold bdsStep
      dsimp only
      rw [hscan]
      dsimp only
      unfold bdsAssemble
      rw [hrec1, hrec2]
    · rw [List.head?_reverse]
      exact reconstructPath_getLast hrec2
  · intro neighbors s curF qfRest curB qbRest m q1 q2 pf1 pb1 pf pbRaw hqf hqb
      hscanF hscanB hrec1 hrec2
    obtain ⟨qf, qb, parentF, parentB, expanded, frontierMax, trace⟩ := s
    simp only at hqf hqb hscanF hscanB ⊢
    subst hqf hqb
    refine ⟨?_, reconstructPath_getLast hrec1, ?_⟩
    · unfold bdsStep
      dsimp only
      rw [hscanF]
      dsimp only
      rw [hscanB]
      dsimp only
      unfold bdsAssemble
      rw [hrec1, hrec2]
    · rw [List.head?_reverse]
      exact reconstructPath_getLast hrec2

/-- Witness for C8 on a two-node line graph, with a forward-side meeting
(start 0, goal 1) and a backward-side meeting (path 0-1-2, goal 2). -/
theorem bds_meeting_path_spliced_witness :
    bdsStep (σ := ℕ) (fun n => if n = 0 then [(1, 1)] else [(0, 1)])
      ⟨[0], [1], [(0, none)], [(1, none)], 0, 2, []⟩ =
      .done ⟨true, [0, 1], .val 1, 1, 2⟩ ∧
    bdsStep (σ := ℕ)
      (fun n => if n = 0 then [(3, 1)] else if n = 3 then [(0, 1), (2, 1)] else [(3, 1)])
      ⟨[0], [2], [(0, none)], [(2, none)], 0, 2, []⟩ =
      .done ⟨true, [0, 3, 2], .val 2, 2, 2⟩ := by
  constructor
  · have := bds_meeting_path_spliced.1
      (fun n => if n = 0 then [(1, 1)] else [(0, 1)])
      ⟨[0], [1], [(0, none)], [(1, none)], 0, 2, []⟩ 0 [] 1 [] 1 []
      [(1, some 0), (0, none)] [0, 1] [1] rfl rfl (by decide) (by decide) (by decide)
    simpa using this.1
  · have := bds_meeting_path_spliced.2
      (fun n => if n = 0 then [(3, 1)] else if n = 3 then [(0, 1), (2, 1)] else [(3, 1)])
      ⟨[0], [2], [(0, none)], [(2, none)], 0, 2, []⟩ 0 [] 2 [] 3 [3] []
      [(3, some 0), (0, none)] [(3, some 2), (2, none)]
      [0, 3] [2, 3] rfl rfl (by decide) (by decide) (by decide) (by decide)
    simpa using this.1

theorem aLt_iff {σ : Type u} [DecidableEq σ] (a b : APQItem σ) :
    aLt a b = true ↔
      (a.f < b.f ∨ (a.f = b.f ∧ (a.g < b.g ∨ (a.g = b.g ∧ a.tie < b.tie)))) := by
  unfold aLt
  simp [Bool.or_eq_true, Bool.and_eq_true, decide_eq_true_eq]

theorem aLt_irrefl {σ : Type u} [DecidableEq σ] (a : APQItem σ) :
    aLt a a = false := by
  unfold aLt
  simp

theorem aLt_trans {σ : Type u} [DecidableEq σ] (a b c : APQItem σ)
    (h1 : aLt a b = true) (h2 : aLt b c = true) : aLt a c = true := by
  rw [aLt_iff] at h1 h2 ⊢
  rcases h1 with h1 | ⟨e1, h1⟩
  · rcases h2 with h2 | ⟨e2, h2⟩
    · exact Or.inl (h1.trans h2)
    · exact Or.inl (e2 ▸ h1)
  · rcases h2 with h2 | ⟨e2, h2⟩
    · exact Or.inl (by rw [e1]; exact h2)
    · refine Or.inr ⟨e1.trans e2, ?_⟩
      rcases h1 with h1 | ⟨e1g, h1⟩
      · rcases h2 with h2 | ⟨e2g, h2⟩
        · exact Or.inl (h1.trans h2)
        · exact Or.inl (e2g ▸ h1)
      · rcases h2 with h2 | ⟨e2g, h2⟩
        · exact Or.inl (by rw [e1g]; exact h2)
        · exact Or.inr ⟨e1g.trans e2g, h1.trans h2⟩

theorem aLt_total {σ : Type u} [DecidableEq σ] (a b : APQItem σ) :
    aLt a b = true ∨ aLt b a = true ∨ (a.f = b.f ∧ a.g = b.g ∧ a.tie = b.tie) := by
  rcases lt_trichotomy a.f b.f with h | h | h
  · exact Or.inl ((aLt_iff a b).mpr (Or.inl h))
  · rcases lt_trichotomy a.g b.g with h2 | h2 | h2
    · exact Or.inl ((aLt_iff a b).mpr (Or.inr ⟨h, Or.inl h2⟩))
    · rcases lt_trichotomy a.tie b.tie with h3 | h3 | h3
      · exact Or.inl ((aLt_iff a b).mpr (Or.inr ⟨h, Or.inr ⟨h2, h3⟩⟩))
      · exact Or.inr (Or.inr ⟨h, h2, h3⟩)
      · exact Or.inr (Or.inl ((aLt_iff b a).mpr (Or.inr ⟨h.symm, Or.inr ⟨h2.symm, h3⟩⟩)))
    · exact Or.inr (Or.inl ((aLt_iff b a).mpr (Or.inr ⟨h.symm, Or.inl h2⟩)))
  · exact Or.inr (Or.inl ((aLt_iff b a).mpr (Or.inl h)))

theorem aLt_neg_trans {σ : Type u} [DecidableEq σ] (a b c : APQItem σ)
    (hab : aLt a b = false) (hbc : aLt b c = false) : aLt a c = false := by
  cases hac : aLt a c with
  | false => rfl
  | true =>
    exfalso
    rcases aLt_total a b with h | h | h
    · rw [h] at hab; cases hab
    · have := aLt_trans b a c h hac
      rw [this] at hbc; cases hbc
    · have hcong : aLt a c = aLt b c := by
        unfold aLt; rw [h.1, h.2.1, h.2.2]
      rw [hcong] at hac
      rw [hac] at hbc; cases hbc

theorem astarRelax_pushes {σ : Type u} [DecidableEq σ] (h : σ → ℚ) (cur : σ)
    (curG : ℚ) :
    ∀ (nbrs : List (σ × ℚ)) (s s' : AstarState σ),
      astarRelax h cur curG nbrs s = .ok s' →
      ∀ it ∈ s'.heap, it ∈ s.heap ∨ it.f = it.g + h it.state := by
  intro nbrs
  induction nbrs with
  | nil =>
    intro s s' hok it hit
    rw [astarRelax] at hok
    cases hok
    exact Or.inl hit
  | cons hd tl ih =>
    intro s s' hok it hit
    obtain ⟨nxt, step⟩ := hd
    rw [astarRelax] at hok
    by_cases hs : step < 0
    · rw [if_pos hs] at hok; cases hok
    · rw [if_neg hs] at hok
      dsimp only at hok
      split at hok
      · rcases ih _ _ hok it hit with hmem | hf
        · simp only [List.mem_append, List.mem_singleton] at hmem
          rcases hmem with h1 | h1
          · exact Or.inl h1
          · subst h1
            exact Or.inr rfl
        · exact Or.inr hf
      · rcases ih _ _ hok it hit with h1 | h1
        · exact Or.inl h1
        · exact Or.inr h1

/-- C6: the A* frontier entries compare lexicographically by `f = g + h`,
then `g`, then insertion order (`tie`), with the state payload excluded
from comparison; the popped entry is minimal under this order; every
entry pushed by the relaxation loop carries `f = g + h(state)`; and when
a fresh goal entry is popped, the reported cost is its cumulative g-cost,
not its f-value. -/
theorem astar_frontier_order_and_goal_cost {σ : Type u} [DecidableEq σ] :
    (∀ a b : APQItem σ, aLt a b = true ↔
      (a.f < b.f ∨ (a.f = b.f ∧ (a.g < b.g ∨ (a.g = b.g ∧ a.tie < b.tie))))) ∧
    (∀ (f1 g1 : ℚ) (t1 : ℕ) (s1 s1' : σ) (f2 g2 : ℚ) (t2 : ℕ) (s2 s2' : σ),
      aLt ⟨f1, g1, t1, s1⟩ ⟨f2, g2, t2, s2⟩ = aLt ⟨f1, g1, t1, s1'⟩ ⟨f2, g2, t2, s2'⟩) ∧
    (∀ (l : List (APQItem σ)) (item : APQItem σ) (rest : List (APQItem σ)),
      popMinBy aLt l = some (item, rest) →
      item ∈ l ∧ ∀ x ∈ l, aLt x item = false) ∧
    (∀ (h : σ → ℚ) (cur : σ) (curG : ℚ) (nbrs : List (σ × ℚ)) (s s' : AstarState σ),
      astarRelax h cur curG nbrs s = .ok s' →
      ∀ it ∈ s'.heap, it ∈ s.heap ∨ it.f = it.g + h it.state) ∧
    (∀ (isGoal : σ → Bool) (neighbors : σ → List (σ × ℚ)) (h : σ → ℚ)
        (s : AstarState σ) (item : APQItem σ) (hrest : List (APQItem σ))
        (path : List σ),
      popMinBy aLt s.heap = some (item, hrest) →
      dGet s.gCost item.state = some item.g →
      isGoal item.state = true →
      reconstructPath s.parent item.state = some path →
      astarStep isGoal neighbors h s =
        .done ⟨true, path, .val item.g, s.expanded + 1,
          max s.frontierMax s.heap.length⟩) := by
  refine ⟨aLt_iff, ?_, ?_, astarRelax_pushes, ?_⟩
  · intro f1 g1 t1 s1 s1' f2 g2 t2 s2 s2'
    rfl
  · intro l item rest hpop
    exact popMinBy_min aLt_irrefl aLt_trans aLt_neg_trans hpop
  · intro isGoal neighbors h s item hrest path hpop hfresh hgoal hrec
    unfold astarStep
    rw [hpop]
    have hb : (match dGet s.gCost item.state with
        | none => true
        | some g => decide (item.g ≠ g)) = false := by
      rw [hfresh]; simp
    simp only [hb, Bool.false_eq_true, if_false, hgoal, if_true, hrec, hfresh]
    simp

/-- Witness for C6 at concrete items, heaps, and a concrete goal pop. -/
theorem astar_frontier_order_and_goal_cost_witness :
    aLt (⟨0, 0, 0, (0 : ℕ)⟩ : APQItem ℕ) ⟨1, 0, 0, 0⟩ = true ∧
    aLt (⟨0, 0, 0, (2 : ℕ)⟩ : APQItem ℕ) ⟨1, 1, 1, 3⟩ =
      aLt (⟨0, 0, 0, (5 : ℕ)⟩ : APQItem ℕ) ⟨1, 1, 1, 7⟩ ∧
    ((⟨2, 1, 1, (4 : ℕ)⟩ : APQItem ℕ) ∈
        [(⟨3, 0, 0, (9 : ℕ)⟩ : APQItem ℕ), ⟨2, 1, 1, 4⟩] ∧
      ∀ x ∈ [(⟨3, 0, 0, (9 : ℕ)⟩ : APQItem ℕ), ⟨2, 1, 1, 4⟩],
        aLt x ⟨2, 1, 1, 4⟩ = false) ∧
    (∀ it ∈ [(⟨5, 5, 0, 3⟩ : APQItem ℕ)],
      it ∈ [(⟨5, 5, 0, 3⟩ : APQItem ℕ)] ∨
        it.f = it.g + (fun n : ℕ => (n : ℚ)) it.state) ∧
    astarStep (σ := ℕ) (fun s => decide (s = 4)) (fun _ => []) (fun _ => 9)
      ⟨[⟨3, 3, 0, 4⟩], 0, [(4, 3)], [(4, none)], 0, 1, []⟩ =
      .done ⟨true, [4], .val 3, 1, 1⟩ := by
  refine ⟨?_, ?_, ?_, ?_, ?_⟩
  · exact (astar_frontier_order_and_goal_cost.1 ⟨0, 0, 0, 0⟩ ⟨1, 0, 0, 0⟩).mpr
      (Or.inl (by norm_num))
  · exact astar_frontier_order_and_goal_cost.2.1 0 0 0 2 5 1 1 1 3 7
  · exact astar_frontier_order_and_goal_cost.2.2.1
      [⟨3, 0, 0, 9⟩, ⟨2, 1, 1, 4⟩] ⟨2, 1, 1, 4⟩ [⟨3, 0, 0, 9⟩] (by decide)
  · exact astar_frontier_order_and_goal_cost.2.2.2.1 (fun n : ℕ => (n : ℚ)) 0 0
      [] ⟨[⟨5, 5, 0, 3⟩], 0, [(0, 0)], [(0, none)], 0, 1, []⟩
      ⟨[⟨5, 5, 0, 3⟩], 0, [(0, 0)], [(0, none)], 0, 1, []⟩ rfl
  · have := astar_frontier_order_and_goal_cost.2.2.2.2 (fun s => decide (s = 4))
      (fun _ => []) (fun _ => 9) ⟨[⟨3, 3, 0, 4⟩], 0, [(4, 3)], [(4, none)], 0, 1, []⟩
      ⟨3, 3, 0, 4⟩ [] [4] (by decide) (by decide) (by decide) (by decide)
    simpa using this

/-- C3 counterexample: with `depth_limit = 0` and `start == goal`, the
start node is popped at recorded depth `0 ≥ depth_limit`, yet `dls`
returns `found = true` — the goal check was performed, not skipped, for
a node at depth ≥ the limit (the source checks the goal before the depth
cut-off). -/
theorem dls_goal_check_at_limit_counterexample :
    dls (0 : ℕ) (fun s => decide (s = 0)) (fun _ => []) 0 1 =
      .done ⟨true, [0], .val 0, 1, 1⟩ ∧ (0 : ℕ) ≥ 0 := by
  constructor
  · rfl
  · decide

/-- C3 (amended): a node popped with recorded depth ≥ `depth_limit` is
still counted as expanded and still goal-checked (returning success if it
is the goal); only neighbor generation is skipped — the continuation
state keeps the parent and depth maps unchanged and pushes nothing. -/
theorem dls_depth_limit_behavior {σ : Type u} [DecidableEq σ]
    (isGoal : σ → Bool) (neighbors : σ → List (σ × ℚ)) (depthLimit : ℕ)
    (s : DlsState σ) (cur : σ) (depth : ℕ) (strest : List (σ × ℕ))
    (hstack : s.stack = (cur, depth) :: strest) :
    (isGoal cur = false → depth ≥ depthLimit →
      dlsStep isGoal neighbors depthLimit s =
        .next ⟨strest, s.parent, s.bestDepthSeen, s.expanded + 1,
          max s.frontierMax s.stack.length, s.trace ++ [cur]⟩) ∧
    (∀ path, isGoal cur = true → reconstructPath s.parent cur = some path →
      dlsStep isGoal neighbors depthLimit s =
        .done ⟨true, path, .val ((path.length - 1 : ℕ) : ℚ), s.expanded + 1,
          max s.frontierMax s.stack.length⟩) := by
  obtain ⟨stack, parent, bestDepthSeen, expanded, frontierMax, trace⟩ := s
  simp only at hstack
  subst hstack
  constructor
  · intro hgoal hdepth
    unfold dlsStep
    simp only [hgoal, Bool.false_eq_true, if_false, if_pos hdepth]
  · intro path hgoal hrec
    unfold dlsStep
    simp only [hgoal, if_true, hrec]

/-- Witness for C3 (amended): a non-goal node at the depth limit is
discarded but counted; a goal node at the depth limit still succeeds. -/
theorem dls_depth_limit_behavior_witness :
    dlsStep (σ := ℕ) (fun _ => false) (fun _ => [(9, 1)]) 3
      ⟨[(5, 3)], [(5, none)], [(5, 3)], 7, 2, []⟩ =
      .next ⟨[], [(5, none)], [(5, 3)], 8, max 2 1, [5]⟩ ∧
    dlsStep (σ := ℕ) (fun s => decide (s = 5)) (fun _ => [(9, 1)]) 3
      ⟨[(5, 3)], [(5, none)], [(5, 3)], 7, 2, []⟩ =
      .done ⟨true, [5], .val 0, 8, max 2 1⟩ := by
  constructor
  · exact (dls_depth_limit_behavior (fun _ => false) (fun _ => [(9, 1)]) 3
      ⟨[(5, 3)], [(5, none)], [(5, 3)], 7, 2, []⟩ 5 3 [] rfl).1 rfl (by decide)
  · have := (dls_depth_limit_behavior (fun s => decide (s = 5)) (fun _ => [(9, 1)]) 3
      ⟨[(5, 3)], [(5, none)], [(5, 3)], 7, 2, []⟩ 5 3 [] rfl).2 [5] (by decide) (by decide)
    simpa using this
